import Mathlib

/-!
Shallow embedding of the chess tournament pairing and result-recording code
(`interactive_tournament.py` and `tournament_simulator.py`).

Player records and standings mirror the Python `players` dictionary; the
opponent selector, the round pairing loop, the result validation and the
score-update passes are translated function by function.
-/

namespace ChessSim

/-- One entry of the Python `players` dictionary:
`{"rating": ..., "wins": 0, "losses": 0, "draws": 0, "played": set()}`.
The `played` set is modelled as a duplicate-free list (insertions go
through `List.insert`, which is a no-op on members, like `set.add`). -/
structure PlayerRec where
  rating : Option Int
  wins : Nat
  losses : Nat
  draws : Nat
  played : List Nat

/-- The standings store: the `players` dictionary, as a total map from ids. -/
def Standings : Type := Nat → PlayerRec

/-- `abs(players_data[opp_id]["wins"] - p1_wins)` from `find_best_opponent`. -/
def winDiff (players_data : Standings) (player1_id opp_id : Nat) : Nat :=
  (((players_data opp_id).wins : Int) - ((players_data player1_id).wins : Int)).natAbs

/-- The comparison used by `sorted(potential_opponents_ids, key=...)`:
ascending absolute win difference against the subject. -/
def oppLE (players_data : Standings) (player1_id : Nat) (a b : Nat) : Prop :=
  winDiff players_data player1_id a ≤ winDiff players_data player1_id b

instance (players_data : Standings) (player1_id : Nat) :
    DecidableRel (oppLE players_data player1_id) := fun a b =>
  inferInstanceAs (Decidable (_ ≤ _))

/-- `sorted_opponents = sorted(potential_opponents_ids, key=lambda opp_id: abs(...))`.
Python's `sorted` is a stable ascending sort by the key; we use insertion sort,
which computes the same (unique) stable reordering. -/
def sortOpponents (player1_id : Nat) (potential_opponents_ids : List Nat)
    (players_data : Standings) : List Nat :=
  potential_opponents_ids.insertionSort (oppLE players_data player1_id)

/-- `find_best_opponent` from `interactive_tournament.py` (lines 4-51):
empty pool returns `None`; pass 1 returns the first not-yet-played candidate
of the sorted order; pass 2 falls back to the head of the sorted order. -/
def find_best_opponent (player1_id : Nat) (potential_opponents_ids : List Nat)
    (players_data : Standings) : Option Nat :=
  if potential_opponents_ids = [] then none
  else
    match (sortOpponents player1_id potential_opponents_ids players_data).find?
        (fun o => decide (o ∉ (players_data player1_id).played)) with
    | some o => some o
    | none =>
      match sortOpponents player1_id potential_opponents_ids players_data with
      | [] => none
      | o :: _ => some o

/-- `find_best_opponent` from `tournament_simulator.py` (lines 7-39); the body
performs the same computation as the interactive variant. -/
def find_best_opponent_sim (player1_id : Nat) (potential_opponents_ids : List Nat)
    (players_data : Standings) : Option Nat :=
  if potential_opponents_ids = [] then none
  else
    match (sortOpponents player1_id potential_opponents_ids players_data).find?
        (fun o => decide (o ∉ (players_data player1_id).played)) with
    | some o => some o
    | none =>
      match sortOpponents player1_id potential_opponents_ids players_data with
      | [] => none
      | o :: _ => some o

/-! ### Basic facts about the selector's sort -/

theorem oppLE_total (players_data : Standings) (player1_id : Nat) :
    ∀ a b, oppLE players_data player1_id a b ∨ oppLE players_data player1_id b a :=
  fun a b => Nat.le_total _ _

theorem oppLE_trans (players_data : Standings) (player1_id : Nat) :
    ∀ a b c, oppLE players_data player1_id a b → oppLE players_data player1_id b c →
      oppLE players_data player1_id a c :=
  fun _ _ _ => Nat.le_trans

theorem sortOpponents_perm (player1_id : Nat) (cands : List Nat) (players_data : Standings) :
    (sortOpponents player1_id cands players_data).Perm cands :=
  List.perm_insertionSort _ _

theorem mem_sortOpponents {player1_id : Nat} {cands : List Nat} {players_data : Standings}
    {x : Nat} : x ∈ sortOpponents player1_id cands players_data ↔ x ∈ cands :=
  (sortOpponents_perm player1_id cands players_data).mem_iff

theorem sortOpponents_sorted (player1_id : Nat) (cands : List Nat) (players_data : Standings) :
    (sortOpponents player1_id cands players_data).Pairwise (oppLE players_data player1_id) := by
  haveI : IsTotal Nat (oppLE players_data player1_id) := ⟨oppLE_total players_data player1_id⟩
  haveI : IsTrans Nat (oppLE players_data player1_id) :=
    ⟨fun a b c => oppLE_trans players_data player1_id a b c⟩
  exact List.sorted_insertionSort _ _

/-- If a pair `[x, y]` is a sublist of `as ++ bs` and `x` is not in `as`,
the pair is already a sublist of `bs`. -/
theorem pair_sublist_drop {x y : Nat} :
    ∀ (as bs : List Nat), List.Sublist [x, y] (as ++ bs) → x ∉ as →
      List.Sublist [x, y] bs := by
  intro as
  induction as with
  | nil => intro bs h _; simpa using h
  | cons a as ih =>
    intro bs h hx
    rw [List.cons_append] at h
    cases h with
    | cons _ h => exact ih bs h (fun hm => hx (List.mem_cons_of_mem _ hm))
    | cons₂ _ h => exact absurd (List.mem_cons_self _ _) hx

/-- First-match characterisation of a stable sort: if `find? p` over the
sorted candidate list returns `c`, then `c` satisfies `p`, has minimal win
difference among the `p`-candidates, and is the earliest candidate of the
input order among `p`-candidates with that minimal difference. -/
theorem find?_sortOpponents_spec {player1_id : Nat} {cands : List Nat}
    {players_data : Standings} {p : Nat → Bool} {c : Nat}
    (hnd : cands.Nodup)
    (h : (sortOpponents player1_id cands players_data).find? p = some c) :
    c ∈ cands ∧ p c = true ∧
      (∀ d ∈ cands, p d = true → winDiff players_data player1_id c ≤ winDiff players_data player1_id d) ∧
      cands.find? (fun d => p d && (winDiff players_data player1_id d == winDiff players_data player1_id c)) = some c := by
  have hperm := sortOpponents_perm player1_id cands players_data
  have hnd' : (sortOpponents player1_id cands players_data).Nodup := hperm.nodup_iff.mpr hnd
  obtain ⟨hpc, as, bs, hsplit, has⟩ := List.find?_eq_some.mp h
  have hcmem : c ∈ cands := mem_sortOpponents.mp (by
    rw [hsplit]; exact List.mem_append_right _ (List.mem_cons_self _ _))
  have hsorted := sortOpponents_sorted player1_id cands players_data
  -- minimality among p-candidates
  have hmin : ∀ d ∈ cands, p d = true →
      winDiff players_data player1_id c ≤ winDiff players_data player1_id d := by
    intro d hd hpd
    have hd' : d ∈ sortOpponents player1_id cands players_data := mem_sortOpponents.mpr hd
    rw [hsplit] at hd'
    rcases List.mem_append.mp hd' with hin | hin
    · exact absurd hpd (by simpa using has d hin)
    · rcases List.mem_cons.mp hin with rfl | hin
      · exact Nat.le_refl _
      · have := (List.pairwise_append.mp (hsplit ▸ hsorted)).2.1
        exact (List.pairwise_cons.mp this).1 d hin
  refine ⟨hcmem, hpc, hmin, ?_⟩
  -- stability: c is the earliest p-candidate of the input with minimal diff
  set q : Nat → Bool :=
    fun d => p d && (winDiff players_data player1_id d == winDiff players_data player1_id c) with hq
  have hqc : q c = true := by simp [hq, hpc]
  obtain ⟨c', hc'⟩ : ∃ c', cands.find? q = some c' := by
    cases hfq : cands.find? q with
    | none => exact absurd hqc (by simpa using List.find?_eq_none.mp hfq c hcmem)
    | some c' => exact ⟨c', rfl⟩
  obtain ⟨hqc', xs, ys, hsplit', hxs⟩ := List.find?_eq_some.mp hc'
  have hqparts : p c' = true ∧
      winDiff players_data player1_id c' = winDiff players_data player1_id c := by
    simpa [hq] using hqc'
  have hpc' : p c' = true := hqparts.1
  have hdc' : winDiff players_data player1_id c' = winDiff players_data player1_id c := hqparts.2
  by_cases hcc : c' = c
  · exact hcc ▸ hc'
  -- otherwise derive a contradiction from stability
  exfalso
  have hcys : c ∈ ys := by
    have : c ∈ cands := hcmem
    rw [hsplit'] at this
    rcases List.mem_append.mp this with hin | hin
    · exact absurd hqc (by simpa using hxs c hin)
    · rcases List.mem_cons.mp hin with h1 | h1
      · exact absurd h1.symm hcc
      · exact h1
  have hpair : List.Sublist [c', c] cands := by
    rw [hsplit']
    exact (List.cons_sublist_cons.mpr (List.singleton_sublist.mpr hcys)).trans
      (List.sublist_append_right xs _)
  have hle : oppLE players_data player1_id c' c := le_of_eq hdc'
  have hpair' : List.Sublist [c', c] (sortOpponents player1_id cands players_data) :=
    List.pair_sublist_insertionSort hle hpair
  rw [hsplit] at hpair' hnd'
  have hc'as : c' ∉ as := by
    intro hm
    have := has c' hm
    rw [hpc'] at this
    simp at this
  have hdropped := pair_sublist_drop as (c :: bs) hpair' hc'as
  have hcbs : c ∈ bs := by
    cases hdropped with
    | cons _ h => exact h.subset (List.mem_cons_of_mem _ (List.mem_cons_self _ _))
    | cons₂ _ h => exact absurd rfl hcc
  have hcnotbs : c ∉ bs := by
    have hsplitNd := List.nodup_append.mp hnd'
    exact (List.nodup_cons.mp hsplitNd.2.1).1
  exact hcnotbs hcbs

/-! ### Totality of the selector -/

theorem find?_always_true_eq_head? (l : List Nat) :
    l.find? (fun _ => true) = l.head? := by
  cases l <;> simp [List.find?]

/-- A returned opponent is drawn from the candidate pool. -/
theorem find_best_opponent_mem {player1_id : Nat} {cands : List Nat}
    {players_data : Standings} {c : Nat}
    (h : find_best_opponent player1_id cands players_data = some c) : c ∈ cands := by
  unfold find_best_opponent at h
  split at h
  · cases h
  · split at h
    · rename_i o hfind
      cases h
      exact mem_sortOpponents.mp (List.mem_of_find?_eq_some hfind)
    · split at h
      · cases h
      · rename_i o rest hsort
        cases h
        have : c ∈ sortOpponents player1_id cands players_data := by
          rw [hsort]; exact List.mem_cons_self _ _
        exact mem_sortOpponents.mp this

/-- The selector returns `none` exactly on an empty candidate pool. -/
theorem find_best_opponent_eq_none_iff (player1_id : Nat) (cands : List Nat)
    (players_data : Standings) :
    find_best_opponent player1_id cands players_data = none ↔ cands = [] := by
  constructor
  · intro h
    by_contra hc
    unfold find_best_opponent at h
    rw [if_neg hc] at h
    split at h
    · cases h
    · split at h
      · rename_i hsort
        have := sortOpponents_perm player1_id cands players_data
        rw [hsort] at this
        exact hc this.symm.eq_nil
      · cases h
  · intro h; simp [find_best_opponent, h]

theorem find_best_opponent_isSome {player1_id : Nat} {cands : List Nat}
    {players_data : Standings} (hc : cands ≠ []) :
    ∃ c, find_best_opponent player1_id cands players_data = some c ∧ c ∈ cands := by
  cases h : find_best_opponent player1_id cands players_data with
  | none => exact absurd ((find_best_opponent_eq_none_iff _ _ _).mp h) hc
  | some c => exact ⟨c, rfl, find_best_opponent_mem h⟩

/-! ### The round pairing loop -/

/-- `pair = tuple(sorted((p1_id, p2_id)))`: the canonical unordered pairing. -/
def canonPair (a b : Nat) : Nat × Nat := (min a b, max a b)

/-- Pointwise update of one player's record in the standings store. -/
def updateAt (players : Standings) (i : Nat) (f : PlayerRec → PlayerRec) : Standings :=
  fun j => if j = i then f (players i) else players j

/-- `players[a]["played"].add(b)`. -/
def addPlayed (players : Standings) (a b : Nat) : Standings :=
  updateAt players a (fun r => { r with played := r.played.insert b })

/-- The two `played` insertions performed when a pairing is formed
(lines 123-124 of the interactive file, 139-140 of the simulator). -/
def recordPairing (players : Standings) (p1_id p2_id : Nat) : Standings :=
  addPlayed (addPlayed players p1_id p2_id) p2_id p1_id

/-- State of the `while len(players_to_pair) >= 2` loop. -/
structure PairState where
  toPair : List Nat
  pairings : List (Nat × Nat)
  players : Standings

/-- One iteration of the pairing loop (guard `while len(players_to_pair) >= 2`,
i.e. the list has a head and a nonempty tail).  The head is popped as the
subject, the remainder is the candidate pool; a returned opponent is removed
and the canonical pairing recorded.  `if p2_id:` in Python is falsy both for
`None` and for the id `0`, in which case the subject is pushed back and the
state is unchanged. -/
def pairStep (st : PairState) : PairState :=
  match st with
  | ⟨p1_id :: rest, pairings, players⟩ =>
    if rest = [] then ⟨p1_id :: rest, pairings, players⟩
    else
      match find_best_opponent p1_id rest players with
      | some p2_id =>
        if p2_id = 0 then ⟨p1_id :: rest, pairings, players⟩
        else
          ⟨rest.erase p2_id, pairings ++ [canonPair p1_id p2_id],
            recordPairing players p1_id p2_id⟩
      | none => ⟨p1_id :: rest, pairings, players⟩
  | st => st

/-- Running the pairing loop for a given number of iterations. -/
def pairRun (fuel : Nat) (st : PairState) : PairState := pairStep^[fuel] st

/-- One round of pairing, from the priority-ordered list of ids (the shuffled,
wins-sorted `players_to_pair`): the loop runs to completion within
`order.length` iterations. -/
def pairRound (players : Standings) (order : List Nat) : PairState :=
  pairRun order.length { toPair := order, pairings := [], players := players }

/-- Flattened member list of a list of pairings. -/
def pairMembers : List (Nat × Nat) → List Nat
  | [] => []
  | pr :: rest => pr.1 :: pr.2 :: pairMembers rest

theorem pairStep_done {st : PairState} (h : st.toPair.length ≤ 1) : pairStep st = st := by
  obtain ⟨l, pairings, players⟩ := st
  cases l with
  | nil => rfl
  | cons p1 rest =>
    cases rest with
    | nil => rfl
    | cons x xs => simp at h

theorem pairRun_done {st : PairState} (h : st.toPair.length ≤ 1) (n : Nat) :
    pairRun n st = st := by
  induction n with
  | zero => rfl
  | succ n ih =>
    show pairStep^[n + 1] st = st
    rw [Function.iterate_succ_apply, pairStep_done h]
    exact ih

theorem canonPair_members_perm (a b : Nat) :
    [(canonPair a b).1, (canonPair a b).2].Perm [a, b] := by
  unfold canonPair
  rcases Nat.le_total a b with h | h
  · simp [Nat.min_eq_left h, Nat.max_eq_right h]
  · simp only [Nat.min_eq_right h, Nat.max_eq_left h]
    exact List.Perm.swap a b []

/-- One guarded iteration: a subject with a nonempty, zero-free candidate
pool always forms a pairing, consuming the subject and the chosen opponent. -/
theorem pairStep_spec (p1 : Nat) (rest : List Nat) (pairings : List (Nat × Nat))
    (players : Standings) (hne : rest ≠ []) (h0 : 0 ∉ rest) :
    ∃ p2, p2 ∈ rest ∧ find_best_opponent p1 rest players = some p2 ∧
      pairStep ⟨p1 :: rest, pairings, players⟩ =
        ⟨rest.erase p2, pairings ++ [canonPair p1 p2], recordPairing players p1 p2⟩ := by
  obtain ⟨p2, hfind, hmem⟩ :=
    @find_best_opponent_isSome p1 rest players hne
  have hp2 : p2 ≠ 0 := fun h => h0 (h ▸ hmem)
  refine ⟨p2, hmem, hfind, ?_⟩
  simp [pairStep, hne, hfind, hp2]

/-- Full run of the pairing loop: with fuel at least the list length, the
loop halts, produces `⌊N/2⌋` pairings and `N mod 2` leftovers, and the
members of the pairings together with the leftovers are a permutation of
the working list. -/
theorem pairRun_spec :
    ∀ (n : Nat) (l : List Nat) (acc : List (Nat × Nat)) (players : Standings),
      l.length ≤ n → 0 ∉ l →
      ∃ (ps : List (Nat × Nat)) (leftover : List Nat) (players' : Standings),
        pairRun n ⟨l, acc, players⟩ = ⟨leftover, acc ++ ps, players'⟩ ∧
        ps.length = l.length / 2 ∧ leftover.length = l.length % 2 ∧
        (pairMembers ps ++ leftover).Perm l := by
  intro n
  induction n with
  | zero =>
    intro l acc players hlen _
    have : l = [] := List.eq_nil_of_length_eq_zero (Nat.le_zero.mp hlen)
    subst this
    exact ⟨[], [], players, by simp [pairRun, pairMembers], by simp, by simp, by simp [pairMembers]⟩
  | succ n ih =>
    intro l acc players hlen h0
    match l with
    | [] =>
      refine ⟨[], [], players, ?_, by simp, by simp, by simp [pairMembers]⟩
      rw [pairRun_done (by simp)]
      simp
    | [x] =>
      refine ⟨[], [x], players, ?_, by simp, by simp, by simp [pairMembers]⟩
      rw [pairRun_done (by simp)]
      simp
    | p1 :: x :: xs =>
      have hne : x :: xs ≠ [] := by simp
      have h0r : 0 ∉ x :: xs := fun h => h0 (List.mem_cons_of_mem _ h)
      obtain ⟨p2, hmem, hfind, hstep⟩ := pairStep_spec p1 (x :: xs) acc players hne h0r
      have herase_len : ((x :: xs).erase p2).length = (x :: xs).length - 1 :=
        List.length_erase_of_mem hmem
      have hsub : ∀ y ∈ (x :: xs).erase p2, y ∈ x :: xs := fun y hy =>
        List.mem_of_mem_erase hy
      have h0e : 0 ∉ (x :: xs).erase p2 := fun h => h0r (hsub 0 h)
      have hlen' : ((x :: xs).erase p2).length ≤ n := by
        rw [herase_len]
        simp only [List.length_cons] at hlen ⊢
        omega
      obtain ⟨ps', leftover, players'', hrun, hpslen, hleftlen, hperm⟩ :=
        ih ((x :: xs).erase p2) (acc ++ [canonPair p1 p2]) (recordPairing players p1 p2)
          hlen' h0e
      refine ⟨canonPair p1 p2 :: ps', leftover, players'', ?_, ?_, ?_, ?_⟩
      · show pairStep^[n + 1] _ = _
        rw [Function.iterate_succ_apply, hstep]
        show pairRun n _ = _
        rw [hrun]
        simp
      · simp only [List.length_cons, herase_len] at *
        omega
      · simp only [List.length_cons, herase_len] at *
        omega
      · simp only [pairMembers, List.cons_append]
        have h1 : ((canonPair p1 p2).1 :: (canonPair p1 p2).2 ::
            (pairMembers ps' ++ leftover)).Perm (p1 :: p2 :: ((x :: xs).erase p2)) := by
          have := List.Perm.append (canonPair_members_perm p1 p2) hperm
          simpa using this
        exact h1.trans (List.Perm.cons p1 (List.perm_cons_erase hmem).symm)

/-! ### Played sets: growth and symmetry -/

/-- Case analysis of one loop iteration: either the state is unchanged, or a
pairing is formed with the head as subject and an opponent from the tail. -/
theorem pairStep_cases (st : PairState) :
    pairStep st = st ∨
    ∃ p1 p2 rest, st.toPair = p1 :: rest ∧ p2 ∈ rest ∧
      pairStep st = ⟨rest.erase p2, st.pairings ++ [canonPair p1 p2],
        recordPairing st.players p1 p2⟩ := by
  obtain ⟨l, prs, players⟩ := st
  match l with
  | [] => exact Or.inl rfl
  | [p1] => exact Or.inl rfl
  | p1 :: x2 :: xs =>
    simp only [pairStep]
    rw [if_neg (by simp : ¬(x2 :: xs = []))]
    cases hf : find_best_opponent p1 (x2 :: xs) players with
    | none => exact Or.inl rfl
    | some p2 =>
      dsimp only
      by_cases h2 : p2 = 0
      · rw [if_pos h2]
        exact Or.inl rfl
      · rw [if_neg h2]
        exact Or.inr ⟨p1, p2, x2 :: xs, rfl, find_best_opponent_mem hf, rfl⟩

theorem addPlayed_played_mono {players : Standings} {i x : Nat} (a b : Nat)
    (h : x ∈ (players i).played) : x ∈ ((addPlayed players a b) i).played := by
  unfold addPlayed updateAt
  by_cases hia : i = a
  · subst hia
    simp only [if_pos rfl]
    exact List.mem_insert_of_mem h
  · simp only [if_neg hia]
    exact h

theorem recordPairing_played_mono {players : Standings} {i x : Nat} (p1 p2 : Nat)
    (h : x ∈ (players i).played) : x ∈ ((recordPairing players p1 p2) i).played :=
  addPlayed_played_mono p2 p1 (addPlayed_played_mono p1 p2 h)

theorem pairStep_played_mono (st : PairState) (i x : Nat)
    (h : x ∈ (st.players i).played) : x ∈ ((pairStep st).players i).played := by
  rcases pairStep_cases st with heq | ⟨p1, p2, rest, _, _, heq⟩
  · rw [heq]; exact h
  · rw [heq]; exact recordPairing_played_mono p1 p2 h

theorem pairRun_played_mono (n : Nat) (st : PairState) (i x : Nat)
    (h : x ∈ (st.players i).played) : x ∈ ((pairRun n st).players i).played := by
  induction n generalizing st with
  | zero => exact h
  | succ n ih =>
    show x ∈ ((pairStep^[n + 1] st).players i).played
    rw [Function.iterate_succ_apply]
    exact ih (pairStep st) (pairStep_played_mono st i x h)

/-- Mutual membership of the two sides of a pairing in each other's
`played` sets. -/
def PlayedSym (players : Standings) (pr : Nat × Nat) : Prop :=
  pr.2 ∈ (players pr.1).played ∧ pr.1 ∈ (players pr.2).played

theorem addPlayed_played_self (players : Standings) (a b : Nat) :
    b ∈ ((addPlayed players a b) a).played := by
  unfold addPlayed updateAt
  simp only [if_pos rfl]
  exact List.mem_insert_self _ _

theorem recordPairing_sym (players : Standings) (p1 p2 : Nat) :
    PlayedSym (recordPairing players p1 p2) (canonPair p1 p2) := by
  have h1 : p2 ∈ ((recordPairing players p1 p2) p1).played :=
    addPlayed_played_mono p2 p1 (addPlayed_played_self players p1 p2)
  have h2 : p1 ∈ ((recordPairing players p1 p2) p2).played :=
    addPlayed_played_self (addPlayed players p1 p2) p2 p1
  unfold PlayedSym canonPair
  rcases Nat.le_total p1 p2 with h | h
  · rw [Nat.min_eq_left h, Nat.max_eq_right h]
    exact ⟨h1, h2⟩
  · rw [Nat.min_eq_right h, Nat.max_eq_left h]
    exact ⟨h2, h1⟩

theorem pairStep_sym_invariant (st : PairState)
    (h : ∀ pr ∈ st.pairings, PlayedSym st.players pr) :
    ∀ pr ∈ (pairStep st).pairings, PlayedSym (pairStep st).players pr := by
  rcases pairStep_cases st with heq | ⟨p1, p2, rest, _, _, heq⟩
  · rw [heq]; exact h
  · rw [heq]
    intro pr hpr
    rcases List.mem_append.mp hpr with hold | hnew
    · obtain ⟨ha, hb⟩ := h pr hold
      exact ⟨recordPairing_played_mono p1 p2 ha, recordPairing_played_mono p1 p2 hb⟩
    · have : pr = canonPair p1 p2 := by simpa using hnew
      rw [this]
      exact recordPairing_sym st.players p1 p2

theorem pairRun_sym_invariant (n : Nat) (st : PairState)
    (h : ∀ pr ∈ st.pairings, PlayedSym st.players pr) :
    ∀ pr ∈ (pairRun n st).pairings, PlayedSym (pairRun n st).players pr := by
  induction n generalizing st with
  | zero => exact h
  | succ n ih =>
    intro pr hpr
    have hsucc : pairRun (n + 1) st = pairRun n (pairStep st) := by
      show pairStep^[n + 1] st = _
      rw [Function.iterate_succ_apply]
      rfl
    rw [hsucc] at hpr ⊢
    exact ih (pairStep st) (pairStep_sym_invariant st h) pr hpr

/-! ### Result declarations, validation and score updates -/

/-- `tuple(sorted(pair))`: canonical form of a pair. -/
def canonOf (p : Nat × Nat) : Nat × Nat := canonPair p.1 p.2

/-- A parsed result declaration for one round: the winners and the drawn
pairs.  Draw pairs are canonicalized at parse time
(`draw_pair = tuple(sorted((p1, p2)))`, interactive file line 191). -/
structure Decl where
  winners : List Nat
  draws : List (Nat × Nat)
  deriving DecidableEq

/-- `all(wid in players for wid in winners)` (line 170). -/
def winnersKnown (playerIds : List Nat) (winners : List Nat) : Bool :=
  winners.all (fun w => decide (w ∈ playerIds))

/-- the `bye_player_id in winners` rejection (line 173). -/
def byeNotWinner (bye : Option Nat) (winners : List Nat) : Bool :=
  match bye with
  | some b => decide (b ∉ winners)
  | none => true

/-- the `draw_pair not in displayed_matches` rejection (line 192). -/
def drawsArePairings (displayed : List (Nat × Nat)) (draws : List (Nat × Nat)) : Bool :=
  draws.all (fun dp => decide (dp ∈ displayed))

/-- the `p1 in winners or p2 in winners` rejection for draw pairs (line 196). -/
def noWinnerInDraw (winners : List Nat) (draws : List (Nat × Nat)) : Bool :=
  draws.all (fun dp => decide (dp.1 ∉ winners) && decide (dp.2 ∉ winners))

/-- `all_players_in_results.issubset(all_players_in_matches)` (line 219). -/
def resultIdsInMatches (displayed : List (Nat × Nat)) (winners : List Nat)
    (draws : List (Nat × Nat)) : Bool :=
  (winners ++ pairMembers draws).all
    (fun p => displayed.any (fun m => decide (p = m.1) || decide (p = m.2)))

/-- the winner-has-a-match check (lines 226-237). -/
def winnersHaveMatch (displayed : List (Nat × Nat)) (winners : List Nat) : Bool :=
  winners.all (fun w => displayed.any (fun m => decide (w = m.1) || decide (w = m.2)))

/-- All validation rules of the interactive results-input loop, in code
order (lines 161-246).  A pairing with no recorded outcome only triggers a
warning (lines 240-244) and does not invalidate the declaration. -/
def validDecl (playerIds : List Nat) (displayed : List (Nat × Nat)) (bye : Option Nat)
    (d : Decl) : Bool :=
  winnersKnown playerIds d.winners && byeNotWinner bye d.winners &&
    drawsArePairings displayed d.draws && noWinnerInDraw d.winners d.draws &&
    resultIdsInMatches displayed d.winners d.draws &&
    winnersHaveMatch displayed d.winners

/-- `players[w]["wins"] += 1; players[l]["losses"] += 1`. -/
def bumpWin (players : Standings) (w l : Nat) : Standings :=
  updateAt (updateAt players w (fun r => { r with wins := r.wins + 1 })) l
    (fun r => { r with losses := r.losses + 1 })

/-- `players[a]["draws"] += 1; players[b]["draws"] += 1`. -/
def bumpDraw (players : Standings) (a b : Nat) : Standings :=
  updateAt (updateAt players a (fun r => { r with draws := r.draws + 1 })) b
    (fun r => { r with draws := r.draws + 1 })

/-- Processing one declared winner (lines 253-273): scan the displayed
matches for the first unprocessed, non-drawn match containing the winner;
award the win and the loss and mark the match processed.  `acc` carries the
standings and the `processed_matches` set. -/
def winnerStep (displayed draws : List (Nat × Nat))
    (acc : Standings × List (Nat × Nat)) (w : Nat) : Standings × List (Nat × Nat) :=
  match displayed.find? (fun m =>
      decide (canonOf m ∉ acc.2) && decide (canonOf m ∉ draws) &&
        (decide (w = (canonOf m).1) || decide (w = (canonOf m).2))) with
  | some m =>
    if w = (canonOf m).1 then
      (bumpWin acc.1 (canonOf m).1 (canonOf m).2, acc.2 ++ [canonOf m])
    else
      (bumpWin acc.1 (canonOf m).2 (canonOf m).1, acc.2 ++ [canonOf m])
  | none => acc

/-- The winners pass of the update block (lines 250-273), starting from an
empty `processed_matches` set. -/
def processWinners (displayed draws : List (Nat × Nat)) (winners : List Nat)
    (players : Standings) : Standings × List (Nat × Nat) :=
  winners.foldl (winnerStep displayed draws) (players, [])

/-- Processing one drawn pair (lines 276-281). -/
def drawStep (acc : Standings × List (Nat × Nat)) (dp : Nat × Nat) :
    Standings × List (Nat × Nat) :=
  if canonOf dp ∈ acc.2 then acc
  else (bumpDraw acc.1 dp.1 dp.2, acc.2 ++ [canonOf dp])

/-- The full update block of the interactive reconciler (lines 249-281):
winners first, then draws. -/
def applyResults (displayed : List (Nat × Nat)) (d : Decl) (players : Standings) :
    Standings × List (Nat × Nat) :=
  d.draws.foldl drawStep (processWinners displayed d.draws d.winners players)

/-- The interactive results-collection loop (lines 165-246): declarations
are read until one validates; a rejected declaration is discarded and the
loop re-prompts.  The input stream is modelled as a list; `none` means the
stream was exhausted before a valid declaration arrived (the Python loop
would still be blocked on input). -/
def collectAndApply (playerIds : List Nat) (displayed : List (Nat × Nat))
    (bye : Option Nat) (players : Standings) : List Decl → Option Standings
  | [] => none
  | d :: ds =>
    if validDecl playerIds displayed bye d then some (applyResults displayed d players).1
    else collectAndApply playerIds displayed bye players ds

/-- Outcome of one simulated match: `random.choices` yields the first id,
the second id, or `'draw'`. -/
inductive MatchOutcome where
  | firstWins
  | secondWins
  | draw
  deriving DecidableEq

/-- The simulator's per-round update (simulator lines 176-191): one sampled
outcome per displayed match, applied immediately.  The sampler is the
external probability collaborator, modelled as an oracle. -/
def simApplyResults (displayed : List (Nat × Nat)) (outcome : Nat × Nat → MatchOutcome)
    (players : Standings) : Standings :=
  displayed.foldl (fun pl m =>
    match outcome m with
    | .firstWins => bumpWin pl m.1 m.2
    | .secondWins => bumpWin pl m.2 m.1
    | .draw => bumpDraw pl m.1 m.2) players

/-- `sorted(players.keys(), key=lambda pid: players[pid]["wins"], reverse=True)`
(interactive file, line 294): stable sort by the win count, descending. -/
def finalOrderInteractive (ids : List Nat) (players : Standings) : List Nat :=
  ids.insertionSort (fun a b => (players b).wins ≤ (players a).wins)

/-- `wins + 0.5*draws` in half-point units (exact: `0.5` is dyadic, so the
float comparisons coincide with the rational ones). -/
def pointsKey (players : Standings) (i : Nat) : Nat :=
  2 * (players i).wins + (players i).draws

/-- `sorted(players.keys(), key=lambda pid: wins + 0.5*draws, reverse=True)`
(simulator, lines 201-205): stable sort by points, descending. -/
def finalOrderSim (ids : List Nat) (players : Standings) : List Nat :=
  ids.insertionSort (fun a b => pointsKey players b ≤ pointsKey players a)

/-- One full round of the interactive tournament (pair, then apply an
accepted declaration against the round's pairings). -/
def runRound (players : Standings) (order : List Nat) (d : Decl) : Standings :=
  (applyResults (pairRound players order).pairings d (pairRound players order).players).1

/-- A whole tournament run: one priority order and one applied declaration
per round. -/
def runTournament (players : Standings) : List (List Nat × Decl) → Standings
  | [] => players
  | (order, d) :: rest => runTournament (runRound players order d) rest

/-! ### Accounting lemmas for the score updates -/

theorem updateAt_self (players : Standings) (i : Nat) (f : PlayerRec → PlayerRec) :
    updateAt players i f i = f (players i) := by
  simp [updateAt]

theorem updateAt_other (players : Standings) (i : Nat) (f : PlayerRec → PlayerRec)
    (j : Nat) (h : j ≠ i) : updateAt players i f j = players j := by
  simp [updateAt, h]

/-- Sum of a numeric field over a list of ids. -/
def totalBy (g : PlayerRec → Nat) (ids : List Nat) (players : Standings) : Nat :=
  (ids.map (fun i => g (players i))).sum

theorem totalBy_updateAt_add (g : PlayerRec → Nat) (f : PlayerRec → PlayerRec) (c : Nat)
    (hf : ∀ r, g (f r) = g r + c) :
    ∀ (ids : List Nat), ids.Nodup → ∀ (players : Standings) (i : Nat), i ∈ ids →
      totalBy g ids (updateAt players i f) = totalBy g ids players + c := by
  intro ids
  induction ids with
  | nil => intro _ players i hi; cases hi
  | cons a rest ih =>
    intro hnd players i hi
    rcases List.mem_cons.mp hi with rfl | hmem
    · have hrest : rest.map (fun j => g (updateAt players i f j))
          = rest.map (fun j => g (players j)) := by
        apply List.map_congr_left
        intro j hj
        rw [updateAt_other players i f j (fun h => (List.nodup_cons.mp hnd).1 (h ▸ hj))]
      simp only [totalBy, List.map_cons, List.sum_cons, updateAt_self, hf, hrest]
      omega
    · have hrec := ih (List.nodup_cons.mp hnd).2 players i hmem
      have hai : a ≠ i := fun h => (List.nodup_cons.mp hnd).1 (h ▸ hmem)
      simp only [totalBy, List.map_cons, List.sum_cons] at hrec ⊢
      rw [updateAt_other players i f a hai]
      omega

theorem totalBy_updateAt_eq (g : PlayerRec → Nat) (f : PlayerRec → PlayerRec)
    (hf : ∀ r, g (f r) = g r) (ids : List Nat) (players : Standings) (i : Nat) :
    totalBy g ids (updateAt players i f) = totalBy g ids players := by
  unfold totalBy
  congr 1
  apply List.map_congr_left
  intro j _
  by_cases hji : j = i
  · subst hji; rw [updateAt_self, hf]
  · rw [updateAt_other _ _ _ _ hji]

theorem updateAt_played (players : Standings) (i : Nat) (f : PlayerRec → PlayerRec)
    (j : Nat) (hf : ∀ r, (f r).played = r.played) :
    (updateAt players i f j).played = (players j).played := by
  by_cases hji : j = i
  · subst hji; rw [updateAt_self, hf]
  · rw [updateAt_other _ _ _ _ hji]

theorem totalBy_bumpWin_wins {ids : List Nat} (hnd : ids.Nodup) (players : Standings)
    {w : Nat} (l : Nat) (hw : w ∈ ids) :
    totalBy (fun r => r.wins) ids (bumpWin players w l)
      = totalBy (fun r => r.wins) ids players + 1 := by
  unfold bumpWin
  rw [totalBy_updateAt_eq (fun r => r.wins)
    (fun r => { r with losses := r.losses + 1 }) (fun r => rfl)]
  exact totalBy_updateAt_add _ _ 1 (fun r => rfl) ids hnd players w hw

theorem totalBy_bumpWin_losses {ids : List Nat} (hnd : ids.Nodup) (players : Standings)
    (w : Nat) {l : Nat} (hl : l ∈ ids) :
    totalBy (fun r => r.losses) ids (bumpWin players w l)
      = totalBy (fun r => r.losses) ids players + 1 := by
  unfold bumpWin
  rw [totalBy_updateAt_add _ _ 1 (fun r => rfl) ids hnd _ l hl]
  rw [totalBy_updateAt_eq (fun r => r.losses)
    (fun r => { r with wins := r.wins + 1 }) (fun r => rfl)]

theorem totalBy_bumpWin_draws (ids : List Nat) (players : Standings) (w l : Nat) :
    totalBy (fun r => r.draws) ids (bumpWin players w l)
      = totalBy (fun r => r.draws) ids players := by
  unfold bumpWin
  rw [totalBy_updateAt_eq (fun r => r.draws)
    (fun r => { r with losses := r.losses + 1 }) (fun r => rfl)]
  rw [totalBy_updateAt_eq (fun r => r.draws)
    (fun r => { r with wins := r.wins + 1 }) (fun r => rfl)]

theorem bumpWin_played (players : Standings) (w l j : Nat) :
    ((bumpWin players w l) j).played = (players j).played := by
  unfold bumpWin
  rw [updateAt_played _ l (fun r => { r with losses := r.losses + 1 }) j (fun r => rfl)]
  rw [updateAt_played players w (fun r => { r with wins := r.wins + 1 }) j (fun r => rfl)]

theorem totalBy_bumpDraw_draws {ids : List Nat} (hnd : ids.Nodup) (players : Standings)
    {a b : Nat} (ha : a ∈ ids) (hb : b ∈ ids) :
    totalBy (fun r => r.draws) ids (bumpDraw players a b)
      = totalBy (fun r => r.draws) ids players + 2 := by
  unfold bumpDraw
  rw [totalBy_updateAt_add _ _ 1 (fun r => rfl) ids hnd _ b hb]
  rw [totalBy_updateAt_add _ _ 1 (fun r => rfl) ids hnd players a ha]

theorem totalBy_bumpDraw_wins (ids : List Nat) (players : Standings) (a b : Nat) :
    totalBy (fun r => r.wins) ids (bumpDraw players a b)
      = totalBy (fun r => r.wins) ids players := by
  unfold bumpDraw
  rw [totalBy_updateAt_eq (fun r => r.wins)
    (fun r => { r with draws := r.draws + 1 }) (fun r => rfl)]
  rw [totalBy_updateAt_eq (fun r => r.wins)
    (fun r => { r with draws := r.draws + 1 }) (fun r => rfl)]

theorem totalBy_bumpDraw_losses (ids : List Nat) (players : Standings) (a b : Nat) :
    totalBy (fun r => r.losses) ids (bumpDraw players a b)
      = totalBy (fun r => r.losses) ids players := by
  unfold bumpDraw
  rw [totalBy_updateAt_eq (fun r => r.losses)
    (fun r => { r with draws := r.draws + 1 }) (fun r => rfl)]
  rw [totalBy_updateAt_eq (fun r => r.losses)
    (fun r => { r with draws := r.draws + 1 }) (fun r => rfl)]

theorem bumpDraw_played (players : Standings) (a b j : Nat) :
    ((bumpDraw players a b) j).played = (players j).played := by
  unfold bumpDraw
  rw [updateAt_played _ b (fun r => { r with draws := r.draws + 1 }) j (fun r => rfl)]
  rw [updateAt_played players a (fun r => { r with draws := r.draws + 1 }) j (fun r => rfl)]

theorem canonOf_comp (m : Nat × Nat) :
    ((canonOf m).1 = m.1 ∨ (canonOf m).1 = m.2) ∧
      ((canonOf m).2 = m.1 ∨ (canonOf m).2 = m.2) := by
  unfold canonOf canonPair
  rcases Nat.le_total m.1 m.2 with h | h
  · simp [Nat.min_eq_left h, Nat.max_eq_right h]
  · simp [Nat.min_eq_right h, Nat.max_eq_left h]

/-- Case analysis of one winner-processing step. -/
theorem winnerStep_cases (displayed draws : List (Nat × Nat))
    (acc : Standings × List (Nat × Nat)) (w : Nat) :
    winnerStep displayed draws acc w = acc ∨
    ∃ m, m ∈ displayed ∧ canonOf m ∉ acc.2 ∧ canonOf m ∉ draws ∧
      (winnerStep displayed draws acc w =
          (bumpWin acc.1 (canonOf m).1 (canonOf m).2, acc.2 ++ [canonOf m]) ∨
        winnerStep displayed draws acc w =
          (bumpWin acc.1 (canonOf m).2 (canonOf m).1, acc.2 ++ [canonOf m])) := by
  unfold winnerStep
  split
  · rename_i m hf
    have hmem := List.mem_of_find?_eq_some hf
    have hp := List.find?_some hf
    simp only [Bool.and_eq_true, Bool.or_eq_true, decide_eq_true_eq] at hp
    refine Or.inr ⟨m, hmem, hp.1.1, hp.1.2, ?_⟩
    by_cases hw : w = (canonOf m).1
    · rw [if_pos hw]; exact Or.inl rfl
    · rw [if_neg hw]; exact Or.inr rfl
  · exact Or.inl rfl

/-- Invariant of the winners pass: each processed winner adds one win and
one loss overall, marks one fresh pairing processed, and touches neither
the draw counters nor the `played` sets. -/
theorem winnersFold_spec (displayed draws : List (Nat × Nat)) (ids : List Nat)
    (hnd : ids.Nodup) (hdisp : ∀ m ∈ displayed, m.1 ∈ ids ∧ m.2 ∈ ids) :
    ∀ (ws : List Nat) (players : Standings) (proc : List (Nat × Nat)),
      ∃ k,
        (ws.foldl (winnerStep displayed draws) (players, proc)).2.length
          = proc.length + k ∧
        totalBy (fun r => r.wins) ids (ws.foldl (winnerStep displayed draws) (players, proc)).1
          = totalBy (fun r => r.wins) ids players + k ∧
        totalBy (fun r => r.losses) ids (ws.foldl (winnerStep displayed draws) (players, proc)).1
          = totalBy (fun r => r.losses) ids players + k ∧
        totalBy (fun r => r.draws) ids (ws.foldl (winnerStep displayed draws) (players, proc)).1
          = totalBy (fun r => r.draws) ids players ∧
        (∀ i, ((ws.foldl (winnerStep displayed draws) (players, proc)).1 i).played
          = (players i).played) ∧
        (∃ t, (ws.foldl (winnerStep displayed draws) (players, proc)).2 = proc ++ t) ∧
        (proc.Nodup → (ws.foldl (winnerStep displayed draws) (players, proc)).2.Nodup) ∧
        (∀ mp ∈ (ws.foldl (winnerStep displayed draws) (players, proc)).2,
          mp ∈ proc ∨ mp ∈ displayed.map canonOf) := by
  intro ws
  induction ws with
  | nil =>
    intro players proc
    exact ⟨0, by simp, by simp, by simp, by simp, fun i => rfl, ⟨[], by simp⟩,
      fun h => h, fun mp hmp => Or.inl hmp⟩
  | cons w ws ih =>
    intro players proc
    rw [List.foldl_cons]
    rcases winnerStep_cases displayed draws (players, proc) w with heq | ⟨m, hm, hfresh, _, hout⟩
    · rw [heq]
      exact ih players proc
    · have hids1 : (canonOf m).1 ∈ ids := by
        rcases (canonOf_comp m).1 with h | h
        · rw [h]; exact (hdisp m hm).1
        · rw [h]; exact (hdisp m hm).2
      have hids2 : (canonOf m).2 ∈ ids := by
        rcases (canonOf_comp m).2 with h | h
        · rw [h]; exact (hdisp m hm).1
        · rw [h]; exact (hdisp m hm).2
      have key : ∀ (wside lside : Nat), wside ∈ ids → lside ∈ ids →
          winnerStep displayed draws (players, proc) w
            = (bumpWin players wside lside, proc ++ [canonOf m]) →
          ∃ k,
            ((w :: ws).foldl (winnerStep displayed draws) (players, proc)).2.length
              = proc.length + k ∧
            totalBy (fun r => r.wins) ids
              ((w :: ws).foldl (winnerStep displayed draws) (players, proc)).1
              = totalBy (fun r => r.wins) ids players + k ∧
            totalBy (fun r => r.losses) ids
              ((w :: ws).foldl (winnerStep displayed draws) (players, proc)).1
              = totalBy (fun r => r.losses) ids players + k ∧
            totalBy (fun r => r.draws) ids
              ((w :: ws).foldl (winnerStep displayed draws) (players, proc)).1
              = totalBy (fun r => r.draws) ids players ∧
            (∀ i, (((w :: ws).foldl (winnerStep displayed draws) (players, proc)).1 i).played
              = (players i).played) ∧
            (∃ t, ((w :: ws).foldl (winnerStep displayed draws) (players, proc)).2
              = proc ++ t) ∧
            (proc.Nodup →
              ((w :: ws).foldl (winnerStep displayed draws) (players, proc)).2.Nodup) ∧
            (∀ mp ∈ ((w :: ws).foldl (winnerStep displayed draws) (players, proc)).2,
              mp ∈ proc ∨ mp ∈ displayed.map canonOf) := by
        intro wside lside hwi hli hstep
        obtain ⟨k, hlen, hwins, hloss, hdraws, hplayed, ⟨t, ht⟩, hnodup, hmem⟩ :=
          ih (bumpWin players wside lside) (proc ++ [canonOf m])
        rw [List.foldl_cons, hstep]
        refine ⟨k + 1, ?_, ?_, ?_, ?_, ?_, ?_, ?_, ?_⟩
        · rw [hlen]; simp; omega
        · rw [hwins, totalBy_bumpWin_wins hnd players lside hwi]; omega
        · rw [hloss, totalBy_bumpWin_losses hnd players wside hli]; omega
        · rw [hdraws, totalBy_bumpWin_draws]
        · intro i; rw [hplayed i, bumpWin_played]
        · exact ⟨[canonOf m] ++ t, by rw [ht, List.append_assoc]⟩
        · intro hpn
          apply hnodup
          rw [List.nodup_append]
          exact ⟨hpn, List.nodup_singleton _, by
            intro x hx hxm
            rcases List.mem_singleton.mp hxm with rfl
            exact hfresh hx⟩
        · intro mp hmp
          rcases hmem mp hmp with hin | hin
          · rcases List.mem_append.mp hin with hin2 | hin2
            · exact Or.inl hin2
            · rcases List.mem_singleton.mp hin2 with rfl
              exact Or.inr (List.mem_map_of_mem canonOf hm)
          · exact Or.inr hin
      rcases hout with hstep | hstep
      · exact key (canonOf m).1 (canonOf m).2 hids1 hids2 hstep
      · exact key (canonOf m).2 (canonOf m).1 hids2 hids1 hstep

/-- Invariant of the draws pass: each fresh drawn pair adds one draw to each
side, marks one fresh pairing processed, and touches nothing else. -/
theorem drawsFold_spec (ids : List Nat) (hnd : ids.Nodup) :
    ∀ (dps : List (Nat × Nat)), (∀ dp ∈ dps, dp.1 ∈ ids ∧ dp.2 ∈ ids) →
      ∀ (players : Standings) (proc : List (Nat × Nat)),
      ∃ k,
        (dps.foldl drawStep (players, proc)).2.length = proc.length + k ∧
        totalBy (fun r => r.draws) ids (dps.foldl drawStep (players, proc)).1
          = totalBy (fun r => r.draws) ids players + 2 * k ∧
        totalBy (fun r => r.wins) ids (dps.foldl drawStep (players, proc)).1
          = totalBy (fun r => r.wins) ids players ∧
        totalBy (fun r => r.losses) ids (dps.foldl drawStep (players, proc)).1
          = totalBy (fun r => r.losses) ids players ∧
        (∀ i, ((dps.foldl drawStep (players, proc)).1 i).played = (players i).played) ∧
        (∃ t, (dps.foldl drawStep (players, proc)).2 = proc ++ t) ∧
        (proc.Nodup → (dps.foldl drawStep (players, proc)).2.Nodup) ∧
        (∀ mp ∈ (dps.foldl drawStep (players, proc)).2,
          mp ∈ proc ∨ mp ∈ dps.map canonOf) := by
  intro dps
  induction dps with
  | nil =>
    intro _ players proc
    exact ⟨0, by simp, by simp, by simp, by simp, fun i => rfl, ⟨[], by simp⟩,
      fun h => h, fun mp hmp => Or.inl hmp⟩
  | cons dp dps ih =>
    intro hins players proc
    have hins' : ∀ p ∈ dps, p.1 ∈ ids ∧ p.2 ∈ ids :=
      fun p hp => hins p (List.mem_cons_of_mem _ hp)
    rw [List.foldl_cons]
    by_cases hin : canonOf dp ∈ proc
    · rw [show drawStep (players, proc) dp = (players, proc) by simp [drawStep, hin]]
      obtain ⟨k, hlen, hdraws, hwins, hloss, hplayed, hpre, hnodup, hmem⟩ :=
        ih hins' players proc
      refine ⟨k, hlen, hdraws, hwins, hloss, hplayed, hpre, hnodup, ?_⟩
      intro mp hmp
      rcases hmem mp hmp with h | h
      · exact Or.inl h
      · exact Or.inr (by rw [List.map_cons]; exact List.mem_cons_of_mem _ h)
    · rw [show drawStep (players, proc) dp
          = (bumpDraw players dp.1 dp.2, proc ++ [canonOf dp]) by simp [drawStep, hin]]
      obtain ⟨k, hlen, hdraws, hwins, hloss, hplayed, ⟨t, ht⟩, hnodup, hmem⟩ :=
        ih hins' (bumpDraw players dp.1 dp.2) (proc ++ [canonOf dp])
      refine ⟨k + 1, ?_, ?_, ?_, ?_, ?_, ?_, ?_, ?_⟩
      · rw [hlen]; simp; omega
      · rw [hdraws, totalBy_bumpDraw_draws hnd players (hins dp (List.mem_cons_self _ _)).1
          (hins dp (List.mem_cons_self _ _)).2]
        omega
      · rw [hwins, totalBy_bumpDraw_wins]
      · rw [hloss, totalBy_bumpDraw_losses]
      · intro i; rw [hplayed i, bumpDraw_played]
      · exact ⟨[canonOf dp] ++ t, by rw [ht, List.append_assoc]⟩
      · intro hpn
        apply hnodup
        rw [List.nodup_append]
        exact ⟨hpn, List.nodup_singleton _, by
          intro x hx hxm
          rcases List.mem_singleton.mp hxm with rfl
          exact hin hx⟩
      · intro mp hmp
        rcases hmem mp hmp with h | h
        · rcases List.mem_append.mp h with h2 | h2
          · exact Or.inl h2
          · rcases List.mem_singleton.mp h2 with rfl
            exact Or.inr (by rw [List.map_cons]; exact List.mem_cons_self _ _)
        · exact Or.inr (by rw [List.map_cons]; exact List.mem_cons_of_mem _ h)

/-- Invariant of the simulator's update pass: each match contributes one
win and one loss, or two draws, according to the sampled outcome. -/
theorem simFold_spec (ids : List Nat) (hnd : ids.Nodup)
    (outcome : Nat × Nat → MatchOutcome) :
    ∀ (ms : List (Nat × Nat)), (∀ m ∈ ms, m.1 ∈ ids ∧ m.2 ∈ ids) →
      ∀ (players : Standings),
      totalBy (fun r => r.wins) ids (simApplyResults ms outcome players)
        = totalBy (fun r => r.wins) ids players
          + ms.countP (fun m => decide (outcome m ≠ MatchOutcome.draw)) ∧
      totalBy (fun r => r.losses) ids (simApplyResults ms outcome players)
        = totalBy (fun r => r.losses) ids players
          + ms.countP (fun m => decide (outcome m ≠ MatchOutcome.draw)) ∧
      totalBy (fun r => r.draws) ids (simApplyResults ms outcome players)
        = totalBy (fun r => r.draws) ids players
          + 2 * ms.countP (fun m => decide (outcome m = MatchOutcome.draw)) ∧
      (∀ i, ((simApplyResults ms outcome players) i).played = (players i).played) := by
  intro ms
  induction ms with
  | nil => intro _ players; exact ⟨by simp [simApplyResults], by simp [simApplyResults],
      by simp [simApplyResults], fun i => rfl⟩
  | cons m ms ih =>
    intro hins players
    have hins2 : ∀ p ∈ ms, p.1 ∈ ids ∧ p.2 ∈ ids :=
      fun p hp => hins p (List.mem_cons_of_mem _ hp)
    have hm1 := (hins m (List.mem_cons_self _ _)).1
    have hm2 := (hins m (List.mem_cons_self _ _)).2
    cases ho : outcome m with
    | firstWins =>
      have hstep : simApplyResults (m :: ms) outcome players
          = simApplyResults ms outcome (bumpWin players m.1 m.2) := by
        simp only [simApplyResults, List.foldl_cons, ho]
      obtain ⟨hw, hl, hd, hp⟩ := ih hins2 (bumpWin players m.1 m.2)
      rw [hstep]
      refine ⟨?_, ?_, ?_, ?_⟩
      · rw [hw, totalBy_bumpWin_wins hnd players m.2 hm1, List.countP_cons]
        simp [ho]
        omega
      · rw [hl, totalBy_bumpWin_losses hnd players m.1 hm2, List.countP_cons]
        simp [ho]
        omega
      · rw [hd, totalBy_bumpWin_draws, List.countP_cons]
        simp [ho]
      · intro i
        rw [hp i, bumpWin_played]
    | secondWins =>
      have hstep : simApplyResults (m :: ms) outcome players
          = simApplyResults ms outcome (bumpWin players m.2 m.1) := by
        simp only [simApplyResults, List.foldl_cons, ho]
      obtain ⟨hw, hl, hd, hp⟩ := ih hins2 (bumpWin players m.2 m.1)
      rw [hstep]
      refine ⟨?_, ?_, ?_, ?_⟩
      · rw [hw, totalBy_bumpWin_wins hnd players m.1 hm2, List.countP_cons]
        simp [ho]
        omega
      · rw [hl, totalBy_bumpWin_losses hnd players m.2 hm1, List.countP_cons]
        simp [ho]
        omega
      · rw [hd, totalBy_bumpWin_draws, List.countP_cons]
        simp [ho]
      · intro i
        rw [hp i, bumpWin_played]
    | draw =>
      have hstep : simApplyResults (m :: ms) outcome players
          = simApplyResults ms outcome (bumpDraw players m.1 m.2) := by
        simp only [simApplyResults, List.foldl_cons, ho]
      obtain ⟨hw, hl, hd, hp⟩ := ih hins2 (bumpDraw players m.1 m.2)
      rw [hstep]
      refine ⟨?_, ?_, ?_, ?_⟩
      · rw [hw, totalBy_bumpDraw_wins, List.countP_cons]
        simp [ho]
      · rw [hl, totalBy_bumpDraw_losses, List.countP_cons]
        simp [ho]
      · rw [hd, totalBy_bumpDraw_draws hnd players hm1 hm2, List.countP_cons]
        simp [ho]
        omega
      · intro i
        rw [hp i, bumpDraw_played]

/-! ### Stable descending sorts and the final standings order -/

theorem orderedInsert_desc (key : Nat → Nat) (x : Nat) :
    ∀ (L : List Nat),
      L.Pairwise (fun a b => key b < key a ∨ (key a = key b ∧ a < b)) →
      (∀ z ∈ L, x < z) →
      (L.orderedInsert (fun a b => key b ≤ key a) x).Pairwise
        (fun a b => key b < key a ∨ (key a = key b ∧ a < b)) := by
  intro L
  induction L with
  | nil => intro _ _; exact List.pairwise_singleton _ _
  | cons b L ih =>
    intro hP hx
    by_cases hr : key b ≤ key x
    · simp only [List.orderedInsert]
      rw [if_pos hr]
      refine List.pairwise_cons.mpr ⟨?_, hP⟩
      intro z hz
      rcases List.mem_cons.mp hz with rfl | hzL
      · rcases Nat.lt_or_ge (key z) (key x) with hlt | hge
        · exact Or.inl hlt
        · exact Or.inr ⟨Nat.le_antisymm hge hr, hx z (List.mem_cons_self _ _)⟩
      · have hzb : key z ≤ key b := by
          rcases (List.pairwise_cons.mp hP).1 z hzL with h | h
          · exact Nat.le_of_lt h
          · exact Nat.le_of_eq h.1.symm
        have hzx : key z ≤ key x := Nat.le_trans hzb hr
        rcases Nat.lt_or_ge (key z) (key x) with hlt | hge
        · exact Or.inl hlt
        · exact Or.inr ⟨Nat.le_antisymm hge hzx, hx z (List.mem_cons_of_mem _ hzL)⟩
    · simp only [List.orderedInsert]
      rw [if_neg hr]
      have hkx : key x < key b := Nat.lt_of_not_le hr
      refine List.pairwise_cons.mpr ⟨?_, ih (List.pairwise_cons.mp hP).2
        (fun z hz => hx z (List.mem_cons_of_mem _ hz))⟩
      intro w hw
      rcases (List.mem_orderedInsert _).mp hw with rfl | hwL
      · exact Or.inl hkx
      · exact (List.pairwise_cons.mp hP).1 w hwL

/-- A stable sort by a descending key, applied to a strictly increasing id
list, is ordered by the key descending with ties broken by ascending id. -/
theorem stableDescSort_pairwise (key : Nat → Nat) :
    ∀ (l : List Nat), l.Pairwise (· < ·) →
      (l.insertionSort (fun a b => key b ≤ key a)).Pairwise
        (fun a b => key b < key a ∨ (key a = key b ∧ a < b)) := by
  intro l
  induction l with
  | nil => intro _; exact List.Pairwise.nil
  | cons x xs ih =>
    intro hasc
    obtain ⟨hx, hxs⟩ := List.pairwise_cons.mp hasc
    show (List.orderedInsert _ x (xs.insertionSort _)).Pairwise _
    exact orderedInsert_desc key x _ (ih hxs)
      (fun z hz => hx z ((List.mem_insertionSort _).mp hz))

/-! ### The reconciler never touches the `played` sets -/

theorem winnerStep_played (displayed draws : List (Nat × Nat))
    (acc : Standings × List (Nat × Nat)) (w i : Nat) :
    (((winnerStep displayed draws acc w).1) i).played = ((acc.1) i).played := by
  rcases winnerStep_cases displayed draws acc w with h | ⟨m, _, _, _, h | h⟩ <;> rw [h]
  all_goals exact bumpWin_played _ _ _ _

theorem winnersFold_played (displayed draws : List (Nat × Nat)) :
    ∀ (ws : List Nat) (acc : Standings × List (Nat × Nat)) (i : Nat),
      ((ws.foldl (winnerStep displayed draws) acc).1 i).played = ((acc.1) i).played := by
  intro ws
  induction ws with
  | nil => intro acc i; rfl
  | cons w ws ih =>
    intro acc i
    rw [List.foldl_cons, ih (winnerStep displayed draws acc w) i,
      winnerStep_played]

theorem drawStep_played (acc : Standings × List (Nat × Nat)) (dp : Nat × Nat) (i : Nat) :
    (((drawStep acc dp).1) i).played = ((acc.1) i).played := by
  unfold drawStep
  by_cases h : canonOf dp ∈ acc.2
  · rw [if_pos h]
  · rw [if_neg h]
    exact bumpDraw_played _ _ _ _

theorem drawsFold_played :
    ∀ (dps : List (Nat × Nat)) (acc : Standings × List (Nat × Nat)) (i : Nat),
      ((dps.foldl drawStep acc).1 i).played = ((acc.1) i).played := by
  intro dps
  induction dps with
  | nil => intro acc i; rfl
  | cons dp dps ih =>
    intro acc i
    rw [List.foldl_cons, ih (drawStep acc dp) i, drawStep_played]

theorem applyResults_played (displayed : List (Nat × Nat)) (d : Decl)
    (players : Standings) (i : Nat) :
    ((applyResults displayed d players).1 i).played = (players i).played := by
  unfold applyResults
  rw [drawsFold_played]
  exact winnersFold_played displayed d.draws d.winners (players, []) i

theorem runTournament_played_mono :
    ∀ (rounds : List (List Nat × Decl)) (players : Standings) (i x : Nat),
      x ∈ (players i).played → x ∈ ((runTournament players rounds) i).played := by
  intro rounds
  induction rounds with
  | nil => exact fun players i x h => h
  | cons rd rest ih =>
    intro players i x h
    obtain ⟨ord, d⟩ := rd
    show x ∈ ((runTournament (runRound players ord d) rest) i).played
    apply ih
    unfold runRound
    rw [applyResults_played]
    exact pairRun_played_mono _ _ i x h

/-! ### Concrete fixtures used by the witnesses -/

/-- All-zero standings (fresh tournament state). -/
def standings0 : Standings := fun _ => ⟨none, 0, 0, 0, []⟩

/-- Standings in which players 1 and 2 have already met. -/
def selWitnessStandings : Standings := fun i =>
  if i = 1 then ⟨none, 0, 0, 0, [2]⟩
  else if i = 2 then ⟨none, 0, 0, 0, [1]⟩
  else ⟨none, 1, 0, 0, []⟩

/-- Standings where the win order and the points order disagree:
player 1 has one win (2 half-points), player 2 has three draws (3). -/
def plPoints : Standings := fun i =>
  if i = 2 then ⟨none, 0, 0, 3, []⟩ else ⟨none, 1, 0, 0, []⟩

/-! ### The claims -/

/-- C1: the Opponent Selector orders candidates by ascending absolute win
difference with ties broken by input position (stable sort); with a
never-played candidate available it returns the first never-played
candidate of that ordering (minimal difference, earliest input position on
ties); with all candidates played it returns the first candidate of the
ordering overall. -/
theorem selector_minimal_stable (players_data : Standings) (player1_id : Nat)
    (cands : List Nat) (hnd : cands.Nodup) :
    ((∃ c ∈ cands, c ∉ (players_data player1_id).played) →
      ∃ c, find_best_opponent player1_id cands players_data = some c ∧
        c ∈ cands ∧ c ∉ (players_data player1_id).played ∧
        (∀ e ∈ cands, e ∉ (players_data player1_id).played →
          winDiff players_data player1_id c ≤ winDiff players_data player1_id e) ∧
        cands.find? (fun e => decide (e ∉ (players_data player1_id).played) &&
          (winDiff players_data player1_id e == winDiff players_data player1_id c))
          = some c) ∧
    (cands ≠ [] → (∀ c ∈ cands, c ∈ (players_data player1_id).played) →
      ∃ c, find_best_opponent player1_id cands players_data = some c ∧
        c ∈ cands ∧
        (∀ e ∈ cands, winDiff players_data player1_id c ≤ winDiff players_data player1_id e) ∧
        cands.find? (fun e =>
          winDiff players_data player1_id e == winDiff players_data player1_id c)
          = some c) := by
  constructor
  · rintro ⟨c0, hc0, hnp0⟩
    have hne : cands ≠ [] := by
      intro h
      subst h
      exact absurd hc0 (List.not_mem_nil c0)
    cases hfind : (sortOpponents player1_id cands players_data).find?
        (fun o => decide (o ∉ (players_data player1_id).played)) with
    | none =>
      exfalso
      have := List.find?_eq_none.mp hfind c0 (mem_sortOpponents.mpr hc0)
      simp at this
      exact hnp0 this
    | some c =>
      obtain ⟨hcmem, hpc, hmin, hfirst⟩ := find?_sortOpponents_spec hnd hfind
      have hcnp : c ∉ (players_data player1_id).played := by simpa using hpc
      refine ⟨c, ?_, hcmem, hcnp, ?_, hfirst⟩
      · unfold find_best_opponent
        rw [if_neg hne, hfind]
      · intro e he hnpe
        exact hmin e he (by simpa using hnpe)
  · intro hne hall
    have hfindnone : (sortOpponents player1_id cands players_data).find?
        (fun o => decide (o ∉ (players_data player1_id).played)) = none := by
      apply List.find?_eq_none.mpr
      intro o ho
      simp
      exact hall o (mem_sortOpponents.mp ho)
    cases hsort : sortOpponents player1_id cands players_data with
    | nil =>
      exfalso
      have := sortOpponents_perm player1_id cands players_data
      rw [hsort] at this
      exact hne this.symm.eq_nil
    | cons o rest =>
      have hfind1 : (sortOpponents player1_id cands players_data).find?
          (fun _ => true) = some o := by
        rw [hsort]
        simp [List.find?]
      obtain ⟨hxmem, _, hmin, hfirst⟩ := find?_sortOpponents_spec hnd hfind1
      refine ⟨o, ?_, hxmem, ?_, ?_⟩
      · unfold find_best_opponent
        rw [if_neg hne, hfindnone, hsort]
      · intro e he
        exact hmin e he rfl
      · simpa using hfirst

/-- Witness for C1 at a concrete pool: player 1 has already faced 2, so the
never-played candidate 3 must be picked despite 2's smaller win difference. -/
theorem selector_minimal_stable_witness :
    ([2, 3] : List Nat).Nodup ∧
    (((∃ c ∈ [2, 3], c ∉ (selWitnessStandings 1).played) →
      ∃ c, find_best_opponent 1 [2, 3] selWitnessStandings = some c ∧
        c ∈ [2, 3] ∧ c ∉ (selWitnessStandings 1).played ∧
        (∀ e ∈ [2, 3], e ∉ (selWitnessStandings 1).played →
          winDiff selWitnessStandings 1 c ≤ winDiff selWitnessStandings 1 e) ∧
        ([2, 3] : List Nat).find? (fun e => decide (e ∉ (selWitnessStandings 1).played) &&
          (winDiff selWitnessStandings 1 e == winDiff selWitnessStandings 1 c))
          = some c) ∧
    (([2, 3] : List Nat) ≠ [] → (∀ c ∈ [2, 3], c ∈ (selWitnessStandings 1).played) →
      ∃ c, find_best_opponent 1 [2, 3] selWitnessStandings = some c ∧
        c ∈ [2, 3] ∧
        (∀ e ∈ [2, 3], winDiff selWitnessStandings 1 c ≤ winDiff selWitnessStandings 1 e) ∧
        ([2, 3] : List Nat).find? (fun e =>
          winDiff selWitnessStandings 1 e == winDiff selWitnessStandings 1 c)
          = some c)) :=
  ⟨by decide, selector_minimal_stable selWitnessStandings 1 [2, 3] (by decide)⟩

/-- C10: the two `find_best_opponent` functions (interactive and simulated
variants) are extensionally equal. -/
theorem selector_variants_agree (player1_id : Nat) (cands : List Nat)
    (players_data : Standings) :
    find_best_opponent player1_id cands players_data
      = find_best_opponent_sim player1_id cands players_data := rfl

/-- C2: one round of the pairing loop on N (≥ 2) distinct nonzero ids yields
exactly ⌊N/2⌋ pairings and N mod 2 leftovers (the bye), and the pairing
members together with the bye are exactly the N ids, each once. -/
theorem round_pairing_complete (players : Standings) (order : List Nat)
    (hN : 2 ≤ order.length) (hnd : order.Nodup) (h0 : 0 ∉ order) :
    (pairRound players order).pairings.length = order.length / 2 ∧
    (pairRound players order).toPair.length = order.length % 2 ∧
    (pairMembers (pairRound players order).pairings
      ++ (pairRound players order).toPair).Perm order ∧
    (pairMembers (pairRound players order).pairings
      ++ (pairRound players order).toPair).Nodup := by
  obtain ⟨ps, leftover, players', hrun, hps, hleft, hperm⟩ :=
    pairRun_spec order.length order [] players (Nat.le_refl _) h0
  unfold pairRound
  rw [hrun]
  dsimp only
  simp only [List.nil_append]
  exact ⟨hps, hleft, hperm, hperm.nodup_iff.mpr hnd⟩

/-- Witness for C2 with three fresh players: one pairing and one bye. -/
theorem round_pairing_complete_witness :
    2 ≤ ([1, 2, 3] : List Nat).length ∧ ([1, 2, 3] : List Nat).Nodup ∧
    0 ∉ ([1, 2, 3] : List Nat) ∧
    ((pairRound standings0 [1, 2, 3]).pairings.length = ([1, 2, 3] : List Nat).length / 2 ∧
    (pairRound standings0 [1, 2, 3]).toPair.length = ([1, 2, 3] : List Nat).length % 2 ∧
    (pairMembers (pairRound standings0 [1, 2, 3]).pairings
      ++ (pairRound standings0 [1, 2, 3]).toPair).Perm [1, 2, 3] ∧
    (pairMembers (pairRound standings0 [1, 2, 3]).pairings
      ++ (pairRound standings0 [1, 2, 3]).toPair).Nodup) :=
  ⟨by decide, by decide, by decide,
    round_pairing_complete standings0 [1, 2, 3] (by decide) (by decide) (by decide)⟩

/-- C8: the selector returns `none` exactly on an empty candidate list, and
the pairing loop never ends with more than one id unpaired, so neither
internal-error branch can execute. -/
theorem no_internal_pairing_errors (players : Standings) (player1_id : Nat)
    (cands : List Nat) (order : List Nat) (h0 : 0 ∉ order) :
    (find_best_opponent player1_id cands players = none ↔ cands = []) ∧
    (pairRound players order).toPair.length ≤ 1 := by
  refine ⟨find_best_opponent_eq_none_iff _ _ _, ?_⟩
  obtain ⟨ps, leftover, players', hrun, _, hleft, _⟩ :=
    pairRun_spec order.length order [] players (Nat.le_refl _) h0
  unfold pairRound
  rw [hrun]
  dsimp only
  rw [hleft]
  omega

/-- Witness for C8. -/
theorem no_internal_pairing_errors_witness :
    0 ∉ ([1, 2, 3] : List Nat) ∧
    ((find_best_opponent 1 [2, 3] standings0 = none ↔ ([2, 3] : List Nat) = []) ∧
    (pairRound standings0 [1, 2, 3]).toPair.length ≤ 1) :=
  ⟨by decide, no_internal_pairing_errors standings0 1 [2, 3] [1, 2, 3] (by decide)⟩

/-- C9: a guarded iteration with a zero-free pool shrinks the working list
by exactly two (one for the subject, one for the opponent), the loop is
finished after at most `order.length` iterations, and extra fuel changes
nothing. -/
theorem pairing_loop_terminates (players : Standings) (order : List Nat)
    (st : PairState) (h0 : 0 ∉ order) :
    (2 ≤ st.toPair.length → 0 ∉ st.toPair →
      (pairStep st).toPair.length + 2 = st.toPair.length) ∧
    (pairRun order.length ⟨order, [], players⟩).toPair.length ≤ 1 ∧
    (∀ m, order.length ≤ m →
      pairRun m ⟨order, [], players⟩ = pairRun order.length ⟨order, [], players⟩) := by
  have hdone : (pairRun order.length ⟨order, [], players⟩).toPair.length ≤ 1 := by
    obtain ⟨ps, leftover, players', hrun, _, hleft, _⟩ :=
      pairRun_spec order.length order [] players (Nat.le_refl _) h0
    rw [hrun]
    dsimp only
    rw [hleft]
    omega
  refine ⟨?_, hdone, ?_⟩
  · intro hlen h0st
    obtain ⟨l, prs, pl⟩ := st
    match l, hlen with
    | p1 :: x :: xs, _ =>
      have h0r : 0 ∉ x :: xs := by
        intro h
        exact h0st (List.mem_cons_of_mem _ h)
      obtain ⟨p2, hmem, _, hstep⟩ := pairStep_spec p1 (x :: xs) prs pl (by simp) h0r
      rw [hstep]
      dsimp only
      rw [List.length_erase_of_mem hmem]
      simp
  · intro m hm
    have hsplit : m - order.length + order.length = m := by omega
    rw [← hsplit]
    show pairStep^[m - order.length + order.length] _ = _
    rw [Function.iterate_add_apply]
    exact pairRun_done hdone (m - order.length)

/-- Witness for C9. -/
theorem pairing_loop_terminates_witness :
    ((pairStep ⟨[1, 2, 3], [], standings0⟩).toPair.length + 2
      = (⟨[1, 2, 3], [], standings0⟩ : PairState).toPair.length) ∧
    (pairRun 3 ⟨[1, 2, 3], [], standings0⟩).toPair.length ≤ 1 ∧
    pairRun 5 ⟨[1, 2, 3], [], standings0⟩ = pairRun 3 ⟨[1, 2, 3], [], standings0⟩ := by
  have h := pairing_loop_terminates standings0 [1, 2, 3] ⟨[1, 2, 3], [], standings0⟩ (by decide)
  exact ⟨h.1 (by decide) (by decide), h.2.1, h.2.2 5 (by decide)⟩

/-- C3: a declaration that violates any of the validation rules is rejected
by the collection loop before any standings mutation: the outcome of the
round is the same as if the rejected declaration had never been entered. -/
theorem rejected_declarations_no_mutation (playerIds : List Nat)
    (displayed : List (Nat × Nat)) (bye : Option Nat) (players : Standings)
    (bad rest : List Decl)
    (hbad : ∀ d ∈ bad,
      winnersKnown playerIds d.winners = false ∨
      byeNotWinner bye d.winners = false ∨
      drawsArePairings displayed d.draws = false ∨
      noWinnerInDraw d.winners d.draws = false) :
    collectAndApply playerIds displayed bye players (bad ++ rest)
      = collectAndApply playerIds displayed bye players rest := by
  induction bad with
  | nil => rfl
  | cons d bad ih =>
    have hv : validDecl playerIds displayed bye d = false := by
      rcases hbad d (List.mem_cons_self _ _) with h | h | h | h <;> simp [validDecl, h]
    have hstep : collectAndApply playerIds displayed bye players (d :: (bad ++ rest))
        = collectAndApply playerIds displayed bye players (bad ++ rest) := by
      simp [collectAndApply, hv]
    rw [List.cons_append, hstep]
    exact ih (fun e he => hbad e (List.mem_cons_of_mem _ he))

/-- Witness for C3: a declaration naming the unknown player 5 is skipped. -/
theorem rejected_declarations_no_mutation_witness :
    (∀ d ∈ [({ winners := [5], draws := [] } : Decl)],
      winnersKnown [1, 2] d.winners = false ∨
      byeNotWinner none d.winners = false ∨
      drawsArePairings [(1, 2)] d.draws = false ∨
      noWinnerInDraw d.winners d.draws = false) ∧
    collectAndApply [1, 2] [(1, 2)] none standings0
        ([{ winners := [5], draws := [] }] ++ [{ winners := [1], draws := [] }])
      = collectAndApply [1, 2] [(1, 2)] none standings0 [{ winners := [1], draws := [] }] :=
  ⟨by decide, rejected_declarations_no_mutation [1, 2] [(1, 2)] none standings0
    [{ winners := [5], draws := [] }] [{ winners := [1], draws := [] }] (by decide)⟩

/-- The coverage notion of claim C4: a pairing is covered by exactly one
outcome (exactly one member declared a winner, or the pair declared drawn,
never both, never neither). -/
def coveredOnce (winners : List Nat) (draws : List (Nat × Nat)) (m : Nat × Nat) : Prop :=
  (m ∈ draws ∧ m.1 ∉ winners ∧ m.2 ∉ winners) ∨
  (m ∉ draws ∧ ((m.1 ∈ winners ∧ m.2 ∉ winners) ∨ (m.2 ∈ winners ∧ m.1 ∉ winners)))

instance (winners : List Nat) (draws : List (Nat × Nat)) (m : Nat × Nat) :
    Decidable (coveredOnce winners draws m) := by
  unfold coveredOnce
  infer_instance

/-- Counterexample to C4: the empty declaration passes every validation rule
(the unresolved-pairing check only warns), yet the round's only pairing is
covered by no outcome at all. -/
theorem accepted_without_coverage :
    validDecl [1, 2] [(1, 2)] none { winners := [], draws := [] } = true ∧
      ¬ coveredOnce [] [] (1, 2) := by
  constructor
  · decide
  · decide

/-- C4 (amended): an accepted declaration never assigns both outcomes to
one pairing — no member of a declared draw is also a declared winner; a
pairing may however be left with no outcome (warn-and-proceed). -/
theorem accepted_no_double_outcome (playerIds : List Nat)
    (displayed : List (Nat × Nat)) (bye : Option Nat) (d : Decl)
    (hv : validDecl playerIds displayed bye d = true) :
    ∀ dp ∈ d.draws, dp.1 ∉ d.winners ∧ dp.2 ∉ d.winners := by
  intro dp hdp
  unfold validDecl at hv
  simp only [Bool.and_eq_true] at hv
  have h4 : noWinnerInDraw d.winners d.draws = true := hv.1.1.2
  have := List.all_eq_true.mp h4 dp hdp
  simp only [Bool.and_eq_true, decide_eq_true_eq] at this
  exact this

/-- Witness for the amended C4. -/
theorem accepted_no_double_outcome_witness :
    validDecl [1, 2, 3, 4] [(1, 2), (3, 4)] none { winners := [1], draws := [(3, 4)] } = true ∧
    (∀ dp ∈ ({ winners := [1], draws := [(3, 4)] } : Decl).draws,
      dp.1 ∉ ({ winners := [1], draws := [(3, 4)] } : Decl).winners ∧
      dp.2 ∉ ({ winners := [1], draws := [(3, 4)] } : Decl).winners) :=
  ⟨by decide, accepted_no_double_outcome [1, 2, 3, 4] [(1, 2), (3, 4)] none
    { winners := [1], draws := [(3, 4)] } (by decide)⟩

/-- C5: applying a round's results gives exactly one update per resolved
pairing — `k1` pairings resolved decisively (one win and one loss each) and
`k2` resolved as draws (two draw increments each); no pairing is resolved
twice and only real pairings (or declared draw pairs) are resolved.  The
simulated variant likewise adds one win and one loss per decisive outcome
and two draws per drawn outcome. -/
theorem score_conservation (ids : List Nat) (displayed : List (Nat × Nat)) (d : Decl)
    (outcome : Nat × Nat → MatchOutcome) (players : Standings)
    (hnd : ids.Nodup)
    (hdisp : ∀ m ∈ displayed, m.1 ∈ ids ∧ m.2 ∈ ids)
    (hdraws : ∀ dp ∈ d.draws, dp.1 ∈ ids ∧ dp.2 ∈ ids) :
    (∃ k1 k2,
      (processWinners displayed d.draws d.winners players).2.length = k1 ∧
      (applyResults displayed d players).2.length = k1 + k2 ∧
      totalBy (fun r => r.wins) ids (applyResults displayed d players).1
        = totalBy (fun r => r.wins) ids players + k1 ∧
      totalBy (fun r => r.losses) ids (applyResults displayed d players).1
        = totalBy (fun r => r.losses) ids players + k1 ∧
      totalBy (fun r => r.draws) ids (applyResults displayed d players).1
        = totalBy (fun r => r.draws) ids players + 2 * k2 ∧
      (applyResults displayed d players).2.Nodup ∧
      (∀ mp ∈ (applyResults displayed d players).2,
        mp ∈ displayed.map canonOf ∨ mp ∈ d.draws.map canonOf)) ∧
    (totalBy (fun r => r.wins) ids (simApplyResults displayed outcome players)
      = totalBy (fun r => r.wins) ids players
        + displayed.countP (fun m => decide (outcome m ≠ MatchOutcome.draw)) ∧
    totalBy (fun r => r.losses) ids (simApplyResults displayed outcome players)
      = totalBy (fun r => r.losses) ids players
        + displayed.countP (fun m => decide (outcome m ≠ MatchOutcome.draw)) ∧
    totalBy (fun r => r.draws) ids (simApplyResults displayed outcome players)
      = totalBy (fun r => r.draws) ids players
        + 2 * displayed.countP (fun m => decide (outcome m = MatchOutcome.draw))) := by
  obtain ⟨k1, hlen1, hwins1, hloss1, hdraws1, _, _, hnodup1, hmem1⟩ :=
    winnersFold_spec displayed d.draws ids hnd hdisp d.winners players []
  obtain ⟨k2, hlen2, hdraws2, hwins2, hloss2, _, _, hnodup2, hmem2⟩ :=
    drawsFold_spec ids hnd d.draws hdraws
      (processWinners displayed d.draws d.winners players).1
      (processWinners displayed d.draws d.winners players).2
  have a1 : (processWinners displayed d.draws d.winners players).2.length = 0 + k1 := hlen1
  have a2 : (applyResults displayed d players).2.length
      = (processWinners displayed d.draws d.winners players).2.length + k2 := hlen2
  have a3 : totalBy (fun r => r.wins) ids (applyResults displayed d players).1
      = totalBy (fun r => r.wins) ids
          (processWinners displayed d.draws d.winners players).1 := hwins2
  have a4 : totalBy (fun r => r.wins) ids
        (processWinners displayed d.draws d.winners players).1
      = totalBy (fun r => r.wins) ids players + k1 := hwins1
  have a5 : totalBy (fun r => r.losses) ids (applyResults displayed d players).1
      = totalBy (fun r => r.losses) ids
          (processWinners displayed d.draws d.winners players).1 := hloss2
  have a6 : totalBy (fun r => r.losses) ids
        (processWinners displayed d.draws d.winners players).1
      = totalBy (fun r => r.losses) ids players + k1 := hloss1
  have a7 : totalBy (fun r => r.draws) ids (applyResults displayed d players).1
      = totalBy (fun r => r.draws) ids
          (processWinners displayed d.draws d.winners players).1 + 2 * k2 := hdraws2
  have a8 : totalBy (fun r => r.draws) ids
        (processWinners displayed d.draws d.winners players).1
      = totalBy (fun r => r.draws) ids players := hdraws1
  have a9 : (applyResults displayed d players).2.Nodup :=
    hnodup2 (hnodup1 List.nodup_nil)
  have a10 : ∀ mp ∈ (applyResults displayed d players).2,
      mp ∈ displayed.map canonOf ∨ mp ∈ d.draws.map canonOf := by
    intro mp hmp
    rcases hmem2 mp hmp with h | h
    · rcases hmem1 mp h with h2 | h2
      · exact absurd h2 (List.not_mem_nil mp)
      · exact Or.inl h2
    · exact Or.inr h
  obtain ⟨s1, s2, s3, _⟩ := simFold_spec ids hnd outcome displayed hdisp players
  exact ⟨⟨k1, k2, by omega, by omega, by omega, by omega, by omega, a9, a10⟩,
    s1, s2, s3⟩

/-- Witness for C5: one pairing, player 1 declared winner. -/
theorem score_conservation_witness :
    ([1, 2] : List Nat).Nodup ∧
    (∀ m ∈ [((1 : Nat), (2 : Nat))], m.1 ∈ ([1, 2] : List Nat) ∧ m.2 ∈ ([1, 2] : List Nat)) ∧
    (∀ dp ∈ ({ winners := [1], draws := [] } : Decl).draws,
      dp.1 ∈ ([1, 2] : List Nat) ∧ dp.2 ∈ ([1, 2] : List Nat)) ∧
    ((∃ k1 k2,
      (processWinners [(1, 2)] ({ winners := [1], draws := [] } : Decl).draws
        ({ winners := [1], draws := [] } : Decl).winners standings0).2.length = k1 ∧
      (applyResults [(1, 2)] { winners := [1], draws := [] } standings0).2.length = k1 + k2 ∧
      totalBy (fun r => r.wins) [1, 2]
          (applyResults [(1, 2)] { winners := [1], draws := [] } standings0).1
        = totalBy (fun r => r.wins) [1, 2] standings0 + k1 ∧
      totalBy (fun r => r.losses) [1, 2]
          (applyResults [(1, 2)] { winners := [1], draws := [] } standings0).1
        = totalBy (fun r => r.losses) [1, 2] standings0 + k1 ∧
      totalBy (fun r => r.draws) [1, 2]
          (applyResults [(1, 2)] { winners := [1], draws := [] } standings0).1
        = totalBy (fun r => r.draws) [1, 2] standings0 + 2 * k2 ∧
      (applyResults [(1, 2)] { winners := [1], draws := [] } standings0).2.Nodup ∧
      (∀ mp ∈ (applyResults [(1, 2)] { winners := [1], draws := [] } standings0).2,
        mp ∈ ([((1 : Nat), (2 : Nat))]).map canonOf ∨
          mp ∈ ({ winners := [1], draws := [] } : Decl).draws.map canonOf)) ∧
    (totalBy (fun r => r.wins) [1, 2]
        (simApplyResults [(1, 2)] (fun _ => MatchOutcome.firstWins) standings0)
      = totalBy (fun r => r.wins) [1, 2] standings0
        + ([((1 : Nat), (2 : Nat))]).countP
            (fun m => decide ((fun _ => MatchOutcome.firstWins) m ≠ MatchOutcome.draw)) ∧
    totalBy (fun r => r.losses) [1, 2]
        (simApplyResults [(1, 2)] (fun _ => MatchOutcome.firstWins) standings0)
      = totalBy (fun r => r.losses) [1, 2] standings0
        + ([((1 : Nat), (2 : Nat))]).countP
            (fun m => decide ((fun _ => MatchOutcome.firstWins) m ≠ MatchOutcome.draw)) ∧
    totalBy (fun r => r.draws) [1, 2]
        (simApplyResults [(1, 2)] (fun _ => MatchOutcome.firstWins) standings0)
      = totalBy (fun r => r.draws) [1, 2] standings0
        + 2 * ([((1 : Nat), (2 : Nat))]).countP
            (fun m => decide ((fun _ => MatchOutcome.firstWins) m = MatchOutcome.draw)))) :=
  ⟨by decide, by decide, by decide,
    score_conservation [1, 2] [(1, 2)] { winners := [1], draws := [] }
      (fun _ => MatchOutcome.firstWins) standings0 (by decide) (by decide) (by decide)⟩

/-- C6: a formed pairing's two sides are in each other's `played` sets
immediately after the pairing loop, and these memberships persist through
the round's result application and through any further rounds. -/
theorem played_symmetry_persists (players : Standings) (order : List Nat) (d : Decl)
    (rounds : List (List Nat × Decl)) :
    ∀ pr ∈ (pairRound players order).pairings,
      (pr.2 ∈ ((pairRound players order).players pr.1).played ∧
        pr.1 ∈ ((pairRound players order).players pr.2).played) ∧
      (pr.2 ∈ ((runTournament (runRound players order d) rounds) pr.1).played ∧
        pr.1 ∈ ((runTournament (runRound players order d) rounds) pr.2).played) := by
  intro pr hpr
  have hsym : PlayedSym (pairRound players order).players pr := by
    apply pairRun_sym_invariant order.length ⟨order, [], players⟩ _ pr hpr
    intro pr2 hpr2
    exact absurd hpr2 (List.not_mem_nil pr2)
  have hpersist : ∀ i x, x ∈ ((pairRound players order).players i).played →
      x ∈ ((runTournament (runRound players order d) rounds) i).played := by
    intro i x hx
    apply runTournament_played_mono
    unfold runRound
    rw [applyResults_played]
    exact hx
  exact ⟨⟨hsym.1, hsym.2⟩, hpersist _ _ hsym.1, hpersist _ _ hsym.2⟩

/-- Witness for C6: players 1 and 2 get paired and stay in each other's
`played` sets after the round is applied. -/
theorem played_symmetry_persists_witness :
    ((1, 2) ∈ (pairRound standings0 [1, 2]).pairings) ∧
    ((2 ∈ ((pairRound standings0 [1, 2]).players 1).played ∧
      1 ∈ ((pairRound standings0 [1, 2]).players 2).played) ∧
    (2 ∈ ((runTournament (runRound standings0 [1, 2] { winners := [1], draws := [] }) [])
        1).played ∧
      1 ∈ ((runTournament (runRound standings0 [1, 2] { winners := [1], draws := [] }) [])
        2).played)) :=
  ⟨by decide, played_symmetry_persists standings0 [1, 2] { winners := [1], draws := [] } []
    (1, 2) (by decide)⟩

/-- Counterexample to C7: the interactive variant sorts the final standings
by raw win count, not by `wins + 0.5*draws`; with player 1 at one win and
player 2 at three draws, it lists 1 before 2 although 2 has more points. -/
theorem interactive_final_not_points_sorted :
    finalOrderInteractive [1, 2] plPoints = [1, 2] ∧
    ¬ List.Pairwise (fun a b => pointsKey plPoints b ≤ pointsKey plPoints a)
      (finalOrderInteractive [1, 2] plPoints) := by
  constructor
  · decide
  · decide

/-- C7 (amended): the simulated variant's final standings are sorted by
`wins + 0.5*draws` descending with ties stably by ascending id, while the
interactive variant's are sorted by raw win count descending with ties
stably by ascending id. -/
theorem final_order_characterisation (ids : List Nat) (players : Standings)
    (hasc : ids.Pairwise (· < ·)) :
    (finalOrderSim ids players).Perm ids ∧
    (finalOrderSim ids players).Pairwise (fun a b =>
      pointsKey players b < pointsKey players a ∨
        (pointsKey players a = pointsKey players b ∧ a < b)) ∧
    (finalOrderInteractive ids players).Perm ids ∧
    (finalOrderInteractive ids players).Pairwise (fun a b =>
      (players b).wins < (players a).wins ∨
        ((players a).wins = (players b).wins ∧ a < b)) := by
  refine ⟨List.perm_insertionSort _ _, ?_, List.perm_insertionSort _ _, ?_⟩
  · exact stableDescSort_pairwise (fun i => pointsKey players i) ids hasc
  · exact stableDescSort_pairwise (fun i => (players i).wins) ids hasc

/-- Witness for the amended C7. -/
theorem final_order_characterisation_witness :
    ([1, 2] : List Nat).Pairwise (· < ·) ∧
    ((finalOrderSim [1, 2] plPoints).Perm [1, 2] ∧
    (finalOrderSim [1, 2] plPoints).Pairwise (fun a b =>
      pointsKey plPoints b < pointsKey plPoints a ∨
        (pointsKey plPoints a = pointsKey plPoints b ∧ a < b)) ∧
    (finalOrderInteractive [1, 2] plPoints).Perm [1, 2] ∧
    (finalOrderInteractive [1, 2] plPoints).Pairwise (fun a b =>
      (plPoints b).wins < (plPoints a).wins ∨
        ((plPoints a).wins = (plPoints b).wins ∧ a < b))) :=
  ⟨by decide, final_order_characterisation [1, 2] plPoints (by decide)⟩

end ChessSim
